import Mathlib

/-!
# Verification of the batsmen record pipeline

A shallow embedding of `src/bin/batsmen.rs`: the `Batsman` record, its
`PartialEq` (epsilon-based equality on `average` via the `approx` crate's
`relative_eq!`), its `Ord` (comparison by `runs` alone), the generic
`sorted` helper (a non-mutating stable sort wrapping `sort_by`), and the
parse → filter → sort pipeline of `main`.

Modelling conventions:
* a Rust `&str` is its list of characters (`Str`);
* `f32` values are modelled by `F32`: an exact rational for finite values,
  plus explicit NaN and the two infinities.  Decimal-to-binary rounding,
  overflow to infinity at parse time and the finite precision of `f32` are
  not modelled: a finite decimal literal stands for its exact rational value;
* a Rust panic (index out of bounds, or one of the two explicit numeric
  panics) is an `Except.error`: the run aborts and no record is produced;
* `Vec::sort_by` is a stable ascending sort with respect to the comparator;
  it is modelled by the stable `List.insertionSort` on the relation
  "the comparator does not answer `Greater`".
-/

set_option maxRecDepth 10000

open List

instance {ε α : Type} [DecidableEq ε] [DecidableEq α] : DecidableEq (Except ε α) := fun x y =>
  match x, y with
  | .ok a, .ok b =>
    match decEq a b with
    | isTrue h => isTrue (by rw [h])
    | isFalse h => isFalse (by simp [h])
  | .error a, .error b =>
    match decEq a b with
    | isTrue h => isTrue (by rw [h])
    | isFalse h => isFalse (by simp [h])
  | .ok _, .error _ => isFalse (by simp)
  | .error _, .ok _ => isFalse (by simp)

/-- A borrowed Rust string slice (`&str`), modelled as its list of characters. -/
abbrev Str := List Char

/-- Model of Rust `f32` values: finite values as exact rationals, plus NaN and
the two infinities (which `f32::from_str` can produce from `"nan"`/`"inf"`
literals and which `round` and `relative_eq!` treat specially). -/
inductive F32 where
  | finite : ℚ → F32
  | nan : F32
  | inf : F32
  | neginf : F32
deriving DecidableEq

/-- IEEE `==` on two `f32` values, the first test of `relative_eq!`:
NaN compares unequal to everything, including itself; equal infinities
compare equal. -/
def F32.ieeeEq : F32 → F32 → Bool
  | .finite x, .finite y => x == y
  | .inf, .inf => true
  | .neginf, .neginf => true
  | _, _ => false

/-- Rust `f32::is_infinite`. -/
def F32.isInfinite : F32 → Bool
  | .inf => true
  | .neginf => true
  | _ => false

/-- `f32::EPSILON` = 2⁻²³, the default `epsilon` and `max_relative`
of the `approx` crate's `relative_eq!`. -/
def F32.EPS : ℚ := 1 / 2 ^ 23

/-- The `approx` crate's `relative_eq!` at its defaults, translated from its
`RelativeEq for f32` implementation: first `self == other` (catches equal
infinities), then reject remaining infinities, then an absolute-difference
test against `epsilon`, then the relative test against
`max(|self|, |other|) * max_relative`.  When either side is NaN the Rust
code computes a NaN `abs_diff` and both `<=` tests are false, so the result
is `false`; the catch-all arm returns `false` likewise. -/
def F32.relativeEq (a b : F32) : Bool :=
  if a.ieeeEq b then true
  else if a.isInfinite || b.isInfinite then false
  else
    match a, b with
    | .finite x, .finite y =>
      let d := |x - y|
      if d ≤ F32.EPS then true else d ≤ max |x| |y| * F32.EPS
    | _, _ => false

/-- Rounding to the nearest integer, ties away from zero: the rounding mode
of Rust `f32::round` on finite values. -/
def F32.roundAway (q : ℚ) : ℤ :=
  if 0 ≤ q then ⌊q + 1 / 2⌋ else ⌈q - 1 / 2⌉

/-- Rust `f32::round`: nearest integer, ties away from zero; NaN and the
infinities are returned unchanged. -/
def F32.round : F32 → F32
  | .finite q => .finite ((F32.roundAway q : ℤ) : ℚ)
  | x => x

/-- Whether a value is a finite whole number. -/
def F32.isIntegral : F32 → Bool
  | .finite q => q.den == 1
  | _ => false

/-- Rust `str::split` on a one-character pattern: the chunks between the
occurrences of `sep`, in order, with empty chunks kept; an empty input
yields one empty chunk, so the result is never the empty list. -/
def splitOnChar (sep : Char) : Str → List Str
  | [] => [[]]
  | c :: cs =>
    match splitOnChar sep cs with
    | [] => [[]]
    | h :: t => if c = sep then [] :: h :: t else (c :: h) :: t

/-- Trailing-whitespace removal, the second half of Rust `str::trim`. -/
def dropTrailingWS : Str → Str
  | [] => []
  | c :: cs =>
    let r := dropTrailingWS cs
    if r.isEmpty && c.isWhitespace then [] else c :: r

/-- Rust `str::trim`: leading and trailing whitespace removed.  Whitespace
is modelled by Lean's `Char.isWhitespace` (space, tab, CR, LF); Rust strips
every Unicode `White_Space` character, which also includes `\x0B`, `\x0C`
and several non-ASCII characters — characters that never occur in the
ASCII input format, and that no theorem here depends on. -/
def trimChars (l : Str) : Str :=
  dropTrailingWS (l.dropWhile Char.isWhitespace)

/-- The numeric value of a string of decimal digits. -/
def digitsVal (l : Str) : ℕ :=
  l.foldl (fun a c => a * 10 + (c.toNat - '0'.toNat)) 0

/-- Nonempty and all ASCII digits. -/
def isDigits (l : Str) : Bool :=
  !l.isEmpty && l.all Char.isDigit

/-- An optional leading `+`/`-` sign: (is-negative, rest). -/
def stripSign : Str → Bool × Str
  | '+' :: t => (false, t)
  | '-' :: t => (true, t)
  | t => (false, t)

/-- Rust `u32::from_str` (`v[1].parse::<u32>()`): an optional leading `+`
followed by one or more ASCII digits, with a value beyond `u32::MAX` an
overflow error.  `from_str_radix` strips a `-` sign only for signed types,
so for `u32` any `-`-prefixed string (including `"-0"`) fails on the `-` as
an invalid digit. -/
def parseU32 (s : Str) : Option ℕ :=
  let ds := match s with
    | '+' :: t => t
    | t => t
  if isDigits ds then
    let n := digitsVal ds
    if n < 2 ^ 32 then some n else none
  else none

/-- The mantissa of the `f32` grammar:
`Digit+ | Digit+ '.' Digit* | Digit* '.' Digit+` — at most one dot, all
other characters digits, at least one digit in total. -/
def parseMantissa (s : Str) : Option ℚ :=
  match splitOnChar '.' s with
  | [i] => if isDigits i then some (digitsVal i : ℚ) else none
  | [i, f] =>
    if (i.all Char.isDigit && f.all Char.isDigit) && !(i.isEmpty && f.isEmpty) then
      some ((digitsVal i : ℚ) + (digitsVal f : ℚ) / ((10 ^ f.length : ℕ) : ℚ))
    else none
  | _ => none

/-- The exponent part of the `f32` grammar, after the `e`/`E`:
an optional sign followed by one or more digits. -/
def parseExponent (s : Str) : Option ℤ :=
  let (neg, ds) := stripSign s
  if isDigits ds then
    some (if neg then -(digitsVal ds : ℤ) else (digitsVal ds : ℤ))
  else none

/-- Ten to an integer power, as an exact rational. -/
def pow10 (e : ℤ) : ℚ :=
  if 0 ≤ e then ((10 ^ e.toNat : ℕ) : ℚ) else 1 / ((10 ^ (-e).toNat : ℕ) : ℚ)

/-- Rust `f32::from_str` (`v[2].parse::<f32>()`), to the `F32` model.  The
grammar from the standard library: an optional sign, then a case-insensitive
`inf`, `infinity` or `nan` keyword, or a decimal mantissa with an optional
`e`/`E` exponent.  A finite result is the exact rational value of the
decimal literal (see the module comment). -/
def parseF32 (s : Str) : Option F32 :=
  let (neg, r) := stripSign s
  let low := r.map Char.toLower
  if low == "inf".data || low == "infinity".data then
    some (if neg then F32.neginf else F32.inf)
  else if low == "nan".data then
    some F32.nan
  else
    let m := r.takeWhile (fun c => c != 'e' && c != 'E')
    match parseMantissa m, r.drop m.length with
    | some q, [] => some (F32.finite (if neg then -q else q))
    | some q, _ :: etail =>
      match parseExponent etail with
      | some e => some (F32.finite ((if neg then -q else q) * pow10 e))
      | none => none
    | none, _ => none

/-- The `Batsman` record: initials and surname are string slices into the
line, `runs` a `u32` (a natural number, kept below 2³² by `parseU32`),
`average` an `f32`. -/
structure Batsman where
  initials : Str
  surname : Str
  runs : ℕ
  average : F32
deriving DecidableEq

/-- `PartialEq for Batsman`: exact equality of `initials`, `surname` and
`runs`, and `relative_eq!` on `average`. -/
def Batsman.beq (a b : Batsman) : Bool :=
  a.initials == b.initials && a.surname == b.surname && a.runs == b.runs &&
    a.average.relativeEq b.average

/-- `Ord for Batsman`: comparison by `runs` alone. -/
def Batsman.cmp (a b : Batsman) : Ordering :=
  compare a.runs b.runs

/-- The relation `sort_by cmp` sorts by: `a` may be placed before `b`
whenever the comparator does not answer `Greater`. -/
def sortLE {α : Type} (cmp : α → α → Ordering) (a b : α) : Prop :=
  cmp a b ≠ Ordering.gt

instance {α : Type} (cmp : α → α → Ordering) : DecidableRel (sortLE cmp) := fun a b =>
  inferInstanceAs (Decidable (cmp a b ≠ Ordering.gt))

/-- The source's generic `sorted` helper: clone the vector and `sort_by` the
comparator, returning the new vector.  `Vec::sort_by` is a stable ascending
sort with respect to the comparator; it is modelled by the stable
`List.insertionSort` on `sortLE cmp`. -/
def sorted {α : Type} (x : List α) (cmp : α → α → Ordering) : List α :=
  x.insertionSort (sortLE cmp)

/-- The three panics a line can raise inside `main`'s parsing closure:
an index out of bounds (`v[i]` / `name[i]`), the `runs` panic
`"Expected second item to be an u32"`, and the `average` panic
`"Expected third item to be an f32"`. -/
inductive ParseError where
  | indexOutOfBounds : ParseError
  | runsNotU32 : ParseError
  | averageNotF32 : ParseError
deriving DecidableEq

/-- `l.split(",").map(|x| x.trim()).collect::<Vec<&str>>()` — the comma
fields of a line, each trimmed. -/
def commaFields (line : Str) : List Str :=
  (splitOnChar ',' line).map trimChars

/-- `v[0].split(" ").collect::<Vec<&str>>()` — the space-separated tokens of
the first comma field (`v[0]` cannot panic: `split` never returns an empty
vector). -/
def nameTokens (line : Str) : List Str :=
  splitOnChar ' ' ((commaFields line).headD [])

/-- One line through the parsing closure of `main`.  The struct literal's
field initialisers run in source order — `initials` (`name[0]`, which cannot
panic), `surname` (`name[1]`), `runs` (`v[1]` then `parse::<u32>()`),
`average` (`v[2]` then `parse::<f32>()` then `round`) — and the first panic
aborts the run. -/
def parseLine (line : Str) : Except ParseError Batsman :=
  match (nameTokens line)[1]? with
  | none => .error .indexOutOfBounds
  | some surname =>
    match (commaFields line)[1]? with
    | none => .error .indexOutOfBounds
    | some runsText =>
      match parseU32 runsText with
      | none => .error .runsNotU32
      | some runs =>
        match (commaFields line)[2]? with
        | none => .error .indexOutOfBounds
        | some avgText =>
          match parseF32 avgText with
          | none => .error .averageNotF32
          | some x => .ok ⟨(nameTokens line).headD [], surname, runs, x.round⟩

/-- The filter closure of `main`: keep a record when the first character of
its surname is `'C'` (`b.surname.chars().next()` matched against
`Some('C')`). -/
def keepC (b : Batsman) : Bool :=
  match b.surname.head? with
  | some 'C' => true
  | _ => false

/-- The `.filter(...)` stage of the pipeline. -/
def filterBatsmen (l : List Batsman) : List Batsman :=
  l.filter keepC

/-- The `sorted(..., |lhs, rhs| rhs.cmp(lhs))` stage: the flipped comparator
makes the stable ascending sort a stable descending sort on `runs`. -/
def sortBatsmen (l : List Batsman) : List Batsman :=
  sorted l (fun lhs rhs => Batsman.cmp rhs lhs)

/-- `main`'s pipeline on the list of input lines: parse every line (the
first panic aborts the whole run), filter, sort.  The Rust iterator chain
is lazy, but the filter closure cannot panic, so parsing all lines first is
observationally the same. -/
def runPipeline (lines : List Str) : Except ParseError (List Batsman) := do
  let bs ← lines.mapM parseLine
  return sortBatsmen (filterBatsmen bs)

/-- The parsed (pre-`round`) value of a line's third comma field, used to
state the rounding law. -/
def parseAvgField (line : Str) : Option F32 :=
  match (commaFields line)[2]? with
  | some t => parseF32 t
  | none => none


/-! ## Helper lemmas -/

/-- `splitOnChar` never returns the empty list of chunks. -/
theorem splitOnChar_cons (sep : Char) (l : Str) :
    ∃ h t, splitOnChar sep l = h :: t := by
  induction l with
  | nil => exact ⟨[], [], rfl⟩
  | cons c cs ih =>
    obtain ⟨h, t, heq⟩ := ih
    by_cases hc : c = sep
    · exact ⟨[], h :: t, by simp [splitOnChar, heq, hc]⟩
    · exact ⟨c :: h, t, by simp [splitOnChar, heq, hc]⟩

/-- When the first character is not the separator, it starts the first chunk. -/
theorem splitOnChar_head_of_ne (sep c : Char) (cs : Str) (hc : c ≠ sep) :
    ∃ h t, splitOnChar sep (c :: cs) = (c :: h) :: t := by
  obtain ⟨h, t, heq⟩ := splitOnChar_cons sep cs
  exact ⟨h, t, by simp [splitOnChar, heq, hc]⟩

/-- The head surviving `dropWhile p` does not satisfy `p`. -/
theorem dropWhile_head_not (p : Char → Bool) (l : Str) (c : Char) (r : Str)
    (h : l.dropWhile p = c :: r) : p c = false := by
  induction l with
  | nil => simp at h
  | cons a as ih =>
    rw [List.dropWhile_cons] at h
    by_cases hp : p a = true
    · exact ih (by rwa [if_pos hp] at h)
    · rw [if_neg hp] at h
      cases h
      simpa using hp

/-- `dropTrailingWS` only ever removes characters from the back:
a nonempty result starts with the input's first character. -/
theorem dropTrailingWS_cons (m : Str) (c : Char) (r : Str)
    (h : dropTrailingWS m = c :: r) : ∃ r2, m = c :: r2 := by
  cases m with
  | nil => simp [dropTrailingWS] at h
  | cons a as =>
    simp only [dropTrailingWS] at h
    split at h
    · cases h
    · cases h
      exact ⟨as, rfl⟩

/-- The first character of a trimmed string is not whitespace. -/
theorem trimChars_head_not_ws (l : Str) (c : Char) (r : Str)
    (h : trimChars l = c :: r) : c.isWhitespace = false := by
  unfold trimChars at h
  obtain ⟨r2, h2⟩ := dropTrailingWS_cons _ _ _ h
  exact dropWhile_head_not _ _ _ _ h2

/-- The first comma field is the trimmed first chunk of the comma split. -/
theorem commaFields_headD (line : Str) :
    (commaFields line).headD [] = trimChars ((splitOnChar ',' line).headD []) := by
  obtain ⟨h, t, heq⟩ := splitOnChar_cons ',' line
  simp [commaFields, heq]

/-- A stable sort does not move elements that the sorting relation cannot
tell apart: filtering the output by a predicate all of whose members are
mutually related gives exactly the filtered input. -/
theorem filter_insertionSort {α : Type} (r : α → α → Prop) [DecidableRel r] (p : α → Bool)
    (hp : ∀ a b : α, p a = true → p b = true → r a b) (l : List α) :
    (l.insertionSort r).filter p = l.filter p := by
  have hpair : (l.filter p).Pairwise r :=
    pairwise_of_forall_mem_list fun a ha b hb => hp a b (of_mem_filter ha) (of_mem_filter hb)
  have hsub : l.filter p <+ l.insertionSort r :=
    sublist_insertionSort hpair (filter_sublist l)
  have hfil : (l.filter p).filter p = l.filter p :=
    filter_eq_self.mpr fun a ha => of_mem_filter ha
  have h1 : l.filter p <+ (l.insertionSort r).filter p := hfil ▸ hsub.filter p
  have hperm : (l.insertionSort r).filter p ~ l.filter p := (perm_insertionSort r l).filter p
  exact (h1.eq_of_length hperm.length_eq.symm).symm

/-- The sorting relation `main` uses — `sortLE` of the flipped `cmp` — is
the descending order on `runs`. -/
theorem sortLE_flip_cmp_iff (a b : Batsman) :
    sortLE (fun lhs rhs => Batsman.cmp rhs lhs) a b ↔ b.runs ≤ a.runs := by
  simp only [sortLE, Batsman.cmp, ne_eq, Nat.compare_eq_gt]
  omega

/-- The filter predicate of `main`, as an equation on `head?`. -/
theorem keepC_eq (b : Batsman) : keepC b = (b.surname.head? == some 'C') := by
  unfold keepC
  rcases h : b.surname.head? with _ | c
  · simp
  · by_cases hc : c = 'C' <;> simp [hc]

/-! ## The claims -/

/-- C1: on the four input lines `"AB Clarke,120,45.6"`, `"CD Smith,80,30.1"`,
`"EF Cook,150,50.4"`, `"GH Cullen,150,20.0"`, the parse → filter → sort
pipeline yields exactly Cook (150), Cullen (150) and Clarke (120), in that
order: Smith is removed by the filter, and Cook precedes Cullen because it
appeared first among the records tied at 150 runs. -/
theorem pipeline_end_to_end :
    runPipeline ["AB Clarke,120,45.6".data, "CD Smith,80,30.1".data,
      "EF Cook,150,50.4".data, "GH Cullen,150,20.0".data] =
    .ok [⟨"EF".data, "Cook".data, 150, F32.finite 50⟩,
         ⟨"GH".data, "Cullen".data, 150, F32.finite 20⟩,
         ⟨"AB".data, "Clarke".data, 120, F32.finite 46⟩] := by
  with_unfolding_all decide

/-- C2, counterexample: the claim "every successfully parsed Record has a
non-empty `initials` and a non-empty `surname`" fails on the line
`"AB  Clarke,120,45.6"` (two spaces in the name field): Rust's
`split(" ")` produces `["AB", "", "Clarke"]`, so `name[1]` — the surname —
is the empty string, yet every field parses and the line is accepted. -/
theorem parser_fields_counterexample :
    parseLine "AB  Clarke,120,45.6".data = .ok ⟨"AB".data, [], 120, F32.finite 46⟩ ∧
    (Batsman.mk "AB".data [] 120 (F32.finite 46)).surname.isEmpty = true := by
  with_unfolding_all decide

/-- C2, amended: for every input line on which the parser succeeds, the
resulting Record's `initials` is non-empty (the first comma field is
trimmed, so its first character is not a space and `name[0]` is a
non-empty token); the surname, however, may be empty. -/
theorem parser_initials_nonempty (line : Str) (b : Batsman)
    (hok : parseLine line = .ok b) : b.initials ≠ [] := by
  unfold parseLine at hok
  rcases h1 : (nameTokens line)[1]? with _ | s
  · simp [h1] at hok
  simp only [h1] at hok
  rcases h2 : (commaFields line)[1]? with _ | rt
  · simp [h2] at hok
  simp only [h2] at hok
  rcases h3 : parseU32 rt with _ | n
  · simp [h3] at hok
  simp only [h3] at hok
  rcases h4 : (commaFields line)[2]? with _ | av
  · simp [h4] at hok
  simp only [h4] at hok
  rcases h5 : parseF32 av with _ | x
  · simp [h5] at hok
  simp only [h5, Except.ok.injEq] at hok
  have hini : b.initials = (nameTokens line).headD [] := by rw [← hok]
  rw [hini]
  unfold nameTokens at h1 ⊢
  rw [commaFields_headD] at h1 ⊢
  simp only [headD_eq_head?_getD] at h1 ⊢
  rcases htc : trimChars (((splitOnChar ',' line).head?).getD []) with _ | ⟨c, r⟩
  · rw [htc] at h1
    simp [splitOnChar] at h1
  · have hws : c.isWhitespace = false := trimChars_head_not_ws _ _ _ htc
    have hc : c ≠ ' ' := by
      intro he
      rw [he] at hws
      simp at hws
    obtain ⟨hh, tt, heq⟩ := splitOnChar_head_of_ne ' ' c r hc
    rw [heq]
    simp

/-- C2, witness: the amended theorem applied to the line
`"AB Clarke,120,45.6"`. -/
theorem parser_initials_nonempty_witness :
    (Batsman.mk "AB".data "Clarke".data 120 (F32.finite 46)).initials ≠ [] :=
  parser_initials_nonempty "AB Clarke,120,45.6".data
    (Batsman.mk "AB".data "Clarke".data 120 (F32.finite 46))
    (by with_unfolding_all decide)

/-- C3: the sorter returns a permutation of its input, the `runs` values of
the output are non-increasing, and records with equal `runs` keep their
relative input order (stability, stated as: filtering the output on any
fixed `runs` value gives the same list as filtering the input). -/
theorem sorter_stable_descending (l : List Batsman) :
    sortBatsmen l ~ l ∧
    (sortBatsmen l).Sorted (fun a b => b.runs ≤ a.runs) ∧
    (∀ n : ℕ, (sortBatsmen l).filter (fun b => b.runs == n) =
      l.filter (fun b => b.runs == n)) := by
  haveI : IsTotal Batsman (sortLE (fun lhs rhs => Batsman.cmp rhs lhs)) :=
    ⟨fun a b => by rw [sortLE_flip_cmp_iff, sortLE_flip_cmp_iff]; omega⟩
  haveI : IsTrans Batsman (sortLE (fun lhs rhs => Batsman.cmp rhs lhs)) :=
    ⟨fun a b c hab hbc => by
      rw [sortLE_flip_cmp_iff] at hab hbc ⊢
      omega⟩
  unfold sortBatsmen sorted
  refine ⟨perm_insertionSort _ l, ?_, ?_⟩
  · exact (sorted_insertionSort _ l).imp fun h => (sortLE_flip_cmp_iff _ _).mp h
  · intro n
    refine filter_insertionSort _ _ ?_ l
    intro a b ha hb
    rw [sortLE_flip_cmp_iff]
    have ha2 : a.runs = n := by simpa using ha
    have hb2 : b.runs = n := by simpa using hb
    omega

/-- C4: a line whose name field has fewer than 2 space tokens, or which has
fewer than 3 comma fields, always makes the parser abort with an error (no
Record, no skip); the line `"AB,120,45.6"` in particular aborts with the
structural index-out-of-bounds panic. -/
theorem structural_failure_fatal :
    (∀ line : Str, (nameTokens line).length < 2 ∨ (commaFields line).length < 3 →
      ∃ e, parseLine line = .error e) ∧
    parseLine "AB,120,45.6".data = .error .indexOutOfBounds := by
  constructor
  · intro line h
    unfold parseLine
    rcases h1 : (nameTokens line)[1]? with _ | s
    · refine ⟨ParseError.indexOutOfBounds, ?_⟩
      simp only [h1]
    have hlen1 : 1 < (nameTokens line).length := (getElem?_eq_some.mp h1).1
    rcases h2 : (commaFields line)[1]? with _ | rt
    · refine ⟨ParseError.indexOutOfBounds, ?_⟩
      simp only [h1, h2]
    rcases h3 : parseU32 rt with _ | n
    · refine ⟨ParseError.runsNotU32, ?_⟩
      simp only [h1, h2, h3]
    rcases h4 : (commaFields line)[2]? with _ | av
    · refine ⟨ParseError.indexOutOfBounds, ?_⟩
      simp only [h1, h2, h3, h4]
    have hlen2 : 2 < (commaFields line).length := (getElem?_eq_some.mp h4).1
    omega
  · with_unfolding_all decide

/-- C5: on a line with at least 3 comma fields and at least 2 name tokens,
a second field that is not a valid `u32` aborts the run with the
`runs`-specific panic, and an invalid third field (with a valid second)
aborts with the `average`-specific panic; the two diagnostics are distinct,
and `"AB Clarke,abc,45.6"` aborts with the `runs` one — as does
`"AB Clarke,-0,45.6"`, since `u32::from_str` rejects every `-`-prefixed
string. -/
theorem numeric_failure_fatal :
    (∀ line runsText : Str,
        2 ≤ (nameTokens line).length →
        (commaFields line)[1]? = some runsText →
        parseU32 runsText = none →
        parseLine line = .error .runsNotU32) ∧
    (∀ (line runsText avgText : Str) (n : ℕ),
        2 ≤ (nameTokens line).length →
        (commaFields line)[1]? = some runsText →
        parseU32 runsText = some n →
        (commaFields line)[2]? = some avgText →
        parseF32 avgText = none →
        parseLine line = .error .averageNotF32) ∧
    ParseError.runsNotU32 ≠ ParseError.averageNotF32 ∧
    parseLine "AB Clarke,abc,45.6".data = .error .runsNotU32 ∧
    parseLine "AB Clarke,-0,45.6".data = .error .runsNotU32 := by
  refine ⟨?_, ?_, by simp, by with_unfolding_all decide, by with_unfolding_all decide⟩
  · intro line rt h2 hrt hfail
    have h1 : (nameTokens line)[1]? = some ((nameTokens line)[1]) :=
      getElem?_eq_getElem (by omega)
    unfold parseLine
    simp only [h1, hrt, hfail]
  · intro line rt av n h2 hrt hn hav hfail
    have h1 : (nameTokens line)[1]? = some ((nameTokens line)[1]) :=
      getElem?_eq_getElem (by omega)
    unfold parseLine
    simp only [h1, hrt, hn, hav, hfail]

/-- C6: two records are `==`-equal exactly when `initials`, `surname` and
`runs` agree by exact comparison and the averages pass the `relative_eq!`
tolerance test; and that test is genuinely coarser than exact equality
(it accepts some pairs of distinct values). -/
theorem record_equality_characterisation :
    (∀ a b : Batsman, Batsman.beq a b = true ↔
      (a.initials = b.initials ∧ a.surname = b.surname ∧ a.runs = b.runs ∧
        F32.relativeEq a.average b.average = true)) ∧
    (∃ x y : ℚ, x ≠ y ∧ F32.relativeEq (F32.finite x) (F32.finite y) = true) := by
  constructor
  · intro a b
    simp [Batsman.beq, Bool.and_eq_true, and_assoc]
  · refine ⟨0, 1 / 2 ^ 24, by norm_num, by with_unfolding_all decide⟩

/-- C7: the filter keeps exactly the records whose surname starts with the
character `'C'` (case-sensitive), never keeps a record with an empty
surname, and preserves relative order (its output is a sublist of its
input). -/
theorem filter_retains_exactly_C (l : List Batsman) :
    filterBatsmen l = l.filter (fun b => b.surname.head? == some 'C') ∧
    filterBatsmen l <+ l ∧
    (∀ b ∈ filterBatsmen l, b.surname.head? = some 'C') ∧
    (∀ b ∈ l, b.surname.head? = some 'C' → b ∈ filterBatsmen l) ∧
    (∀ b ∈ l, b.surname = [] → b ∉ filterBatsmen l) := by
  refine ⟨?_, filter_sublist l, ?_, ?_, ?_⟩
  · exact filter_congr fun b _ => keepC_eq b
  · intro b hb
    have h := of_mem_filter hb
    rw [keepC_eq] at h
    simpa using h
  · intro b hb hC
    refine mem_filter.mpr ⟨hb, ?_⟩
    rw [keepC_eq]
    simp [hC]
  · intro b _ hempty hmem
    have h := of_mem_filter hmem
    rw [keepC_eq, hempty] at h
    simp at h

/-- C8, counterexample: the claim "for every accepted line the stored
`average` is the nearest whole number to the parsed third field" fails on
`"AB Clarke,120,NaN"`: Rust's `f32` parser accepts `"NaN"`, `NaN.round()`
is `NaN`, so the line is accepted with a stored average that is not a
whole number at all. -/
theorem average_rounding_counterexample :
    parseLine "AB Clarke,120,NaN".data =
      .ok ⟨"AB".data, "Clarke".data, 120, F32.nan⟩ ∧
    F32.isIntegral F32.nan = false := by
  with_unfolding_all decide

/-- C8, amended: for every accepted line whose third comma field parses to
a finite value `q`, the stored `average` is the integral value obtained by
rounding `q` to the nearest whole number (ties away from zero), and that
value is within one half of `q` — the fractional part is removed by
rounding, not truncation. -/
theorem average_rounding_of_finite (line : Str) (b : Batsman) (q : ℚ)
    (hok : parseLine line = .ok b)
    (hav : parseAvgField line = some (F32.finite q)) :
    b.average = F32.finite ((F32.roundAway q : ℤ) : ℚ) ∧
    |q - ((F32.roundAway q : ℤ) : ℚ)| ≤ 1 / 2 := by
  constructor
  · unfold parseLine at hok
    unfold parseAvgField at hav
    rcases h1 : (nameTokens line)[1]? with _ | s
    · simp [h1] at hok
    simp only [h1] at hok
    rcases h2 : (commaFields line)[1]? with _ | rt
    · simp [h2] at hok
    simp only [h2] at hok
    rcases h3 : parseU32 rt with _ | n
    · simp [h3] at hok
    simp only [h3] at hok
    rcases h4 : (commaFields line)[2]? with _ | av
    · simp [h4] at hok
    simp only [h4] at hok hav
    rw [hav] at hok
    simp only [Except.ok.injEq] at hok
    rw [← hok]
    simp [F32.round]
  · unfold F32.roundAway
    by_cases h : 0 ≤ q
    · rw [if_pos h]
      have hf1 : ((⌊q + 1 / 2⌋ : ℤ) : ℚ) ≤ q + 1 / 2 := Int.floor_le _
      have hf2 : q + 1 / 2 < ⌊q + 1 / 2⌋ + 1 := Int.lt_floor_add_one _
      rw [abs_le]
      constructor <;> linarith
    · rw [if_neg h]
      have hc1 : q - 1 / 2 ≤ ((⌈q - 1 / 2⌉ : ℤ) : ℚ) := Int.le_ceil _
      have hc2 : ((⌈q - 1 / 2⌉ : ℤ) : ℚ) < q - 1 / 2 + 1 := Int.ceil_lt_add_one _
      rw [abs_le]
      constructor <;> linarith

/-- C8, witness: the amended theorem applied to `"AB Clarke,120,45.6"`,
whose third field parses to 45.6 = 228/5 and is stored as 46. -/
theorem average_rounding_of_finite_witness :
    (Batsman.mk "AB".data "Clarke".data 120 (F32.finite 46)).average =
      F32.finite ((F32.roundAway (228 / 5 : ℚ) : ℤ) : ℚ) ∧
    |(228 / 5 : ℚ) - ((F32.roundAway (228 / 5 : ℚ) : ℤ) : ℚ)| ≤ 1 / 2 :=
  average_rounding_of_finite "AB Clarke,120,45.6".data
    (Batsman.mk "AB".data "Clarke".data 120 (F32.finite 46)) (228 / 5)
    (by with_unfolding_all decide) (by with_unfolding_all decide)

/-- C9: sorting is idempotent — the sorter applied to its own output
returns that output unchanged. -/
theorem sort_idempotent (l : List Batsman) :
    sortBatsmen (sortBatsmen l) = sortBatsmen l := by
  haveI : IsTotal Batsman (sortLE (fun lhs rhs => Batsman.cmp rhs lhs)) :=
    ⟨fun a b => by rw [sortLE_flip_cmp_iff, sortLE_flip_cmp_iff]; omega⟩
  haveI : IsTrans Batsman (sortLE (fun lhs rhs => Batsman.cmp rhs lhs)) :=
    ⟨fun a b c hab hbc => by
      rw [sortLE_flip_cmp_iff] at hab hbc ⊢
      omega⟩
  unfold sortBatsmen sorted
  exact Sorted.insertionSort_eq (sorted_insertionSort _ l)

/-- C10: record equality is not reflexive — the parser accepts
`"AB Clarke,120,NaN"` (Rust's `f32` parser accepts `"NaN"`), and the
resulting record `r` has `r == r` false, because `relative_eq!` of NaN
with itself is false. -/
theorem record_equality_not_reflexive :
    parseLine "AB Clarke,120,NaN".data =
      .ok ⟨"AB".data, "Clarke".data, 120, F32.nan⟩ ∧
    Batsman.beq ⟨"AB".data, "Clarke".data, 120, F32.nan⟩
      ⟨"AB".data, "Clarke".data, 120, F32.nan⟩ = false := by
  with_unfolding_all decide
